import Mathlib

/-!
Shallow embedding of `src/calc-demo.cpp`: a scanner, a recursive-descent
expression parser and an AST evaluator for integer arithmetic over
`+ - * /` and parentheses.

Modelling conventions, each noted again at the definition it concerns:
* The C++ scanner keeps an immutable `input_` string and a cursor
  `offset_`; the pair is modelled by the suffix of the input that starts
  at the cursor (`remaining`).  Advancing the cursor by one character is
  dropping the head of `remaining`.
* C++ `int` is modelled as `Int`.  `std::stoi` refuses a digit run that
  does not fit in the (32-bit) `int` by throwing `std::out_of_range`,
  which `main` never catches, so an over-large literal aborts the run;
  `decodeLit` returns `none` there.  `Int.tdiv` is C++ integer division
  (truncation toward zero).  Division by zero aborts the run (the spec
  declares it a fatal arithmetic failure); `Calculator.evaluate` returns
  `Except.error` there.  Overflow of `+ - *` is not modelled (the spec
  leaves it implementation-defined).
* Fatal exits (`exit(EXIT_FAILURE)` after a syntax error, the uncaught
  `std::out_of_range`, the division trap) are modelled as `Except.error`
  values propagated to the top, as the spec's §9 redesign note describes;
  the parser and evaluator never produce a partial result on an error.
* The C++ parser's recursion (`expr`/`addExpr`/`mulExpr`/`primaryExpr`
  and the two operator loops) is modelled with an explicit recursion-depth
  budget (`fuel`), decremented at every call; `ExprParser.parse` passes
  `4 * (length + 1)` fuel, far above the depth the source can reach on
  that input, so the budget never runs out on the inputs the theorems
  below evaluate (each concrete result is computed, never assumed).
-/

/-- The token classification of the scanner (`enum class Token`). -/
inductive Token where
  | Illegal
  | Eof
  | Whitespace
  | Plus
  | Minus
  | Mul
  | Div
  | NumberLiteral
  | RndOpen
  | RndClose
deriving DecidableEq

/-- The AST: `NumberLiteral` leaves and the four binary nodes
(`PlusExpr`, `MinusExpr`, `MulExpr`, `DivExpr`).  The C++ classes form a
closed hierarchy below `Expr`; the `dynamic_cast` chains of the source
always hit one of these five variants, so a closed inductive is
faithful. -/
inductive Expr where
  | NumberLiteral (literal : Int)
  | PlusExpr (lhs rhs : Expr)
  | MinusExpr (lhs rhs : Expr)
  | MulExpr (lhs rhs : Expr)
  | DivExpr (lhs rhs : Expr)
deriving DecidableEq

/-- Scanner state.  The C++ members `input_` and `offset_` are modelled
by `remaining`, the suffix of the input from the cursor on; `literal_`
and `currentToken_` are carried verbatim. -/
structure Scanner where
  remaining : List Char
  literal : List Char
  currentToken : Token
deriving DecidableEq

/-- One step of `Scanner::tokenizeOnce`: clears the captured literal,
returns `Eof` at the end of the input, classifies the character at the
cursor, consumes the maximal digit run for a number, and consumes one
character (returning `Illegal`) for anything unrecognized.  It does not
touch `currentToken_`, exactly like the source. -/
def Scanner.tokenizeOnce (s : Scanner) : Token × Scanner :=
  match s.remaining with
  | [] => (Token.Eof, { s with literal := [] })
  | c :: cs =>
    if c = ' ' then (Token.Whitespace, { s with remaining := cs, literal := [] })
    else if c = '+' then (Token.Plus, { s with remaining := cs, literal := [] })
    else if c = '-' then (Token.Minus, { s with remaining := cs, literal := [] })
    else if c = '*' then (Token.Mul, { s with remaining := cs, literal := [] })
    else if c = '/' then (Token.Div, { s with remaining := cs, literal := [] })
    else if c = '(' then (Token.RndOpen, { s with remaining := cs, literal := [] })
    else if c = ')' then (Token.RndClose, { s with remaining := cs, literal := [] })
    else if c.isDigit then
      (Token.NumberLiteral,
       { s with remaining := cs.dropWhile Char.isDigit,
                literal := c :: cs.takeWhile Char.isDigit })
    else (Token.Illegal, { s with remaining := cs, literal := [] })

/-- The fusion of `Scanner::tokenize`'s whitespace-skipping loop with
`tokenizeOnce`, as a structurally recursive function of the remaining
input: the loop iterates exactly when `tokenizeOnce` returned
`Whitespace`, i.e. when the head character is a space, and every such
iteration drops that one character.  Returns the first non-whitespace
token, the literal it captured and the input left after it.
`tokenize_skips_whitespace` and `tokenize_stores_step` below prove this
equal to the source's while loop over `tokenizeOnce`. -/
def tokenizeLoop : List Char → Token × List Char × List Char
  | [] => (Token.Eof, [], [])
  | c :: cs =>
    if c = ' ' then tokenizeLoop cs
    else if c = '+' then (Token.Plus, [], cs)
    else if c = '-' then (Token.Minus, [], cs)
    else if c = '*' then (Token.Mul, [], cs)
    else if c = '/' then (Token.Div, [], cs)
    else if c = '(' then (Token.RndOpen, [], cs)
    else if c = ')' then (Token.RndClose, [], cs)
    else if c.isDigit then
      (Token.NumberLiteral, c :: cs.takeWhile Char.isDigit, cs.dropWhile Char.isDigit)
    else (Token.Illegal, [], cs)

/-- `Scanner::tokenize`: runs `tokenizeOnce` past any whitespace and
stores the first non-whitespace token as the current token. -/
def Scanner.tokenize (s : Scanner) : Scanner :=
  match tokenizeLoop s.remaining with
  | (t, lit, rest) => { remaining := rest, literal := lit, currentToken := t }

/-- The scanner the `Scanner` constructor builds for an input: cursor at
the start, empty literal, then one `tokenize` call so `currentToken` is
valid before first use (the pre-`tokenize` value of `currentToken_` is
indeterminate in the source and is overwritten; `Token.Eof` stands in for
it here and does not influence the result). -/
def mkScanner (input : List Char) : Scanner :=
  Scanner.tokenize { remaining := input, literal := [], currentToken := Token.Eof }

/-- The numeric value of a digit string, as `std::stoi` accumulates it. -/
def digitsToNat (l : List Char) : Nat :=
  l.foldl (fun a c => a * 10 + (c.toNat - 48)) 0

/-- The largest value of a 32-bit C++ `int`, `std::stoi`'s target type. -/
def intMax : Nat := 2147483647

/-- Decoding a captured literal with `std::stoi`: the literals the
scanner captures are non-empty digit runs, so `stoi` either yields their
value or throws `std::out_of_range` when it exceeds `INT_MAX` (the
exception is never caught, so it aborts the run; `none` models that, as
it does the `std::invalid_argument` of an empty capture). -/
def decodeLit (l : List Char) : Option Int :=
  if l = [] then none
  else if digitsToNat l ≤ intMax then some (digitsToNat l)
  else none

/-- The fatal parser-side failures: the two `exit(EXIT_FAILURE)` sites
(`primaryExpr`'s `Primary expression expected` and `consumeToken`'s
`Unexpected token ... Expected token ...`), the uncaught `std::stoi`
exception, and exhaustion of the modelled recursion budget (never
reached by the runs evaluated below). -/
inductive SyntaxError where
  | primaryExpected
  | unexpectedToken (found expected : Token)
  | literalOutOfRange (lit : List Char)
  | outOfFuel
deriving DecidableEq

instance {ε α : Type} [DecidableEq ε] [DecidableEq α] : DecidableEq (Except ε α) :=
  fun x y =>
    match x, y with
    | Except.error a, Except.error b => decidable_of_iff (a = b) (by simp)
    | Except.error _, Except.ok _ => isFalse (fun h => Except.noConfusion h)
    | Except.ok _, Except.error _ => isFalse (fun h => Except.noConfusion h)
    | Except.ok a, Except.ok b => decidable_of_iff (a = b) (by simp)

/-- `ExprParser::consumeToken`: checks that the current token is the
expected one and fails otherwise.  Note that the source only checks — it
never advances the scanner — so the expected token stays current; the
model reproduces that faithfully. -/
def consumeToken (t : Token) (s : Scanner) : Except SyntaxError Scanner :=
  if s.currentToken = t then Except.ok s
  else Except.error (SyntaxError.unexpectedToken s.currentToken t)

mutual

/-- `ExprParser::expr`: delegates to `addExpr`. -/
def exprP : Nat → Scanner → Except SyntaxError (Expr × Scanner)
  | 0, _ => Except.error SyntaxError.outOfFuel
  | f + 1, s => addExprP f s

/-- `ExprParser::addExpr`: one `mulExpr`, then the `+`/`-` folding loop. -/
def addExprP : Nat → Scanner → Except SyntaxError (Expr × Scanner)
  | 0, _ => Except.error SyntaxError.outOfFuel
  | f + 1, s => do
    let (lhs, s) ← mulExprP f s
    addLoopP f lhs s

/-- The `for (;;)` loop of `addExpr`: while the current token is `+` or
`-`, consume it, parse another `mulExpr` and fold it into the left-hand
side (producing left-associative trees); on any other token return the
accumulated expression. -/
def addLoopP : Nat → Expr → Scanner → Except SyntaxError (Expr × Scanner)
  | 0, _, _ => Except.error SyntaxError.outOfFuel
  | f + 1, lhs, s =>
    match s.currentToken with
    | Token.Plus => do
      let (rhs, s') ← mulExprP f s.tokenize
      addLoopP f (Expr.PlusExpr lhs rhs) s'
    | Token.Minus => do
      let (rhs, s') ← mulExprP f s.tokenize
      addLoopP f (Expr.MinusExpr lhs rhs) s'
    | _ => Except.ok (lhs, s)

/-- `ExprParser::mulExpr`: one `primaryExpr`, then the `*`/`/` loop. -/
def mulExprP : Nat → Scanner → Except SyntaxError (Expr × Scanner)
  | 0, _ => Except.error SyntaxError.outOfFuel
  | f + 1, s => do
    let (lhs, s) ← primaryExprP f s
    mulLoopP f lhs s

/-- The `for (;;)` loop of `mulExpr`, one precedence level tighter than
`addLoopP`, folding via `MulExpr`/`DivExpr`. -/
def mulLoopP : Nat → Expr → Scanner → Except SyntaxError (Expr × Scanner)
  | 0, _, _ => Except.error SyntaxError.outOfFuel
  | f + 1, lhs, s =>
    match s.currentToken with
    | Token.Mul => do
      let (rhs, s') ← primaryExprP f s.tokenize
      mulLoopP f (Expr.MulExpr lhs rhs) s'
    | Token.Div => do
      let (rhs, s') ← primaryExprP f s.tokenize
      mulLoopP f (Expr.DivExpr lhs rhs) s'
    | _ => Except.ok (lhs, s)

/-- `ExprParser::primaryExpr`: a `NumberLiteral` token is decoded with
`stoi` (before the scanner advances, as in the source) and becomes a
leaf; `(` opens a sub-expression that must be followed by `)` (checked,
but not consumed, by `consumeToken`); anything else is the fatal
`Primary expression expected.` error. -/
def primaryExprP : Nat → Scanner → Except SyntaxError (Expr × Scanner)
  | 0, _ => Except.error SyntaxError.outOfFuel
  | f + 1, s =>
    match s.currentToken with
    | Token.NumberLiteral =>
      match decodeLit s.literal with
      | some n => Except.ok (Expr.NumberLiteral n, s.tokenize)
      | none => Except.error (SyntaxError.literalOutOfRange s.literal)
    | Token.RndOpen => do
      let (sub, s') ← exprP f s.tokenize
      let s'' ← consumeToken Token.RndClose s'
      Except.ok (sub, s'')
    | _ => Except.error SyntaxError.primaryExpected

end

/-- `ExprParser::parse` on an input: build the scanner (which pulls the
first token) and run `expr`.  There is no end-of-input check afterwards:
whatever follows the parsed expression is left unread in the returned
scanner state.  The fuel bounds the recursion depth generously (see the
module comment); the source's recursion depth on a given input is well
below `4 * (length + 1)`. -/
def ExprParser.parse (input : List Char) : Except SyntaxError (Expr × Scanner) :=
  exprP (4 * (input.length + 1)) (mkScanner input)

/-- The evaluation failure: C++ division by zero, which the spec declares
a fatal arithmetic failure (on the source's target it traps; it is never
mapped to a sentinel value). -/
inductive EvalError where
  | divisionByZero
deriving DecidableEq

/-- `Calculator::evaluate`: structural recursion over the five variants.
The `dynamic_cast` chain of the source always matches one of them (the
hierarchy is closed), so the `return -1` fallback is unreachable and has
no counterpart here.  `Int.tdiv` is C++ `int` division (truncation
toward zero); a zero divisor is the fatal arithmetic error. -/
def Calculator.evaluate : Expr → Except EvalError Int
  | Expr.NumberLiteral n => Except.ok n
  | Expr.PlusExpr a b => do
    let x ← Calculator.evaluate a
    let y ← Calculator.evaluate b
    Except.ok (x + y)
  | Expr.MinusExpr a b => do
    let x ← Calculator.evaluate a
    let y ← Calculator.evaluate b
    Except.ok (x - y)
  | Expr.MulExpr a b => do
    let x ← Calculator.evaluate a
    let y ← Calculator.evaluate b
    Except.ok (x * y)
  | Expr.DivExpr a b => do
    let x ← Calculator.evaluate a
    let y ← Calculator.evaluate b
    if y = 0 then Except.error EvalError.divisionByZero
    else Except.ok (Int.tdiv x y)

/-- A fatal outcome of the whole run: a parser-side abort or the
evaluation trap. -/
inductive CalcError where
  | syntaxErr (e : SyntaxError)
  | evalErr (e : EvalError)
deriving DecidableEq

/-- The pipeline of `main` on an input string: parse, then evaluate the
tree (`main` then also prints the result and the tree; printing is not
modelled, no claim concerns it).  A fatal condition on either side ends
the run with that error and no value. -/
def run (input : List Char) : Except CalcError Int :=
  match ExprParser.parse input with
  | Except.error e => Except.error (CalcError.syntaxErr e)
  | Except.ok (e, _) =>
    match Calculator.evaluate e with
    | Except.error er => Except.error (CalcError.evalErr er)
    | Except.ok v => Except.ok v

/-- `run` on a Lean string literal, for readable statements. -/
def runString (s : String) : Except CalcError Int :=
  run s.data

/-- Whether every character of a list is a decimal digit. -/
def isDigits (l : List Char) : Bool :=
  l.all Char.isDigit

/-- Whether a list starts with a decimal digit (`false` for `[]`). -/
def headIsDigit (l : List Char) : Bool :=
  match l with
  | [] => false
  | c :: _ => c.isDigit

/-- Whether a list ends with a decimal digit (`false` for `[]`). -/
def lastIsDigit (l : List Char) : Bool :=
  match l.getLast? with
  | some c => c.isDigit
  | none => false

/-- Dropping a digit run never lengthens a list (used for termination of
the token-stream functions below). -/
theorem length_dropWhile_digits_le (l : List Char) :
    (l.dropWhile Char.isDigit).length ≤ l.length := by
  induction l with
  | nil => simp [List.dropWhile]
  | cons a l ih =>
    rw [List.dropWhile_cons]
    by_cases h : a.isDigit
    · simp only [h, if_true]
      exact Nat.le_succ_of_le ih
    · simp [h]

/-- The whole token stream of repeated `tokenizeOnce` steps from a given
cursor position, `Whitespace` and `Illegal` tokens included, up to and
including the final `Eof`.  Mirrors `tokenizeOnce` case by case
(`rawStream_matches_tokenizeOnce` below proves the agreement); it is
total because every non-`Eof` step consumes at least one character. -/
def rawStream : List Char → List Token
  | [] => [Token.Eof]
  | c :: cs =>
    if c = ' ' then Token.Whitespace :: rawStream cs
    else if c = '+' then Token.Plus :: rawStream cs
    else if c = '-' then Token.Minus :: rawStream cs
    else if c = '*' then Token.Mul :: rawStream cs
    else if c = '/' then Token.Div :: rawStream cs
    else if c = '(' then Token.RndOpen :: rawStream cs
    else if c = ')' then Token.RndClose :: rawStream cs
    else if c.isDigit then Token.NumberLiteral :: rawStream (cs.dropWhile Char.isDigit)
    else Token.Illegal :: rawStream cs
termination_by l => l.length
decreasing_by
  all_goals simp only [List.length_cons]
  all_goals try omega
  exact Nat.lt_succ_of_le (length_dropWhile_digits_le cs)

/-- Every non-`Eof` result of `tokenizeLoop` strictly consumes input
(used for termination of `toks`). -/
theorem tokenizeLoop_progress :
    ∀ (l : List Char) (t : Token) (lit rest : List Char),
      tokenizeLoop l = (t, lit, rest) → t ≠ Token.Eof → rest.length < l.length := by
  intro l
  induction l with
  | nil =>
    intro t lit rest h ht
    simp only [tokenizeLoop] at h
    obtain ⟨rfl, rfl, rfl⟩ := Prod.mk.injEq .. ▸ h
    exact absurd rfl ht
  | cons c cs ih =>
    intro t lit rest h ht
    simp only [tokenizeLoop] at h
    split_ifs at h
    case pos => exact Nat.lt_succ_of_lt (ih _ _ _ h ht)
    all_goals
      obtain ⟨rfl, rfl, rfl⟩ := Prod.mk.injEq .. ▸ h
      simp only [List.length_cons]
    any_goals omega
    exact Nat.lt_succ_of_le (length_dropWhile_digits_le cs)

/-- The token stream as the parser sees it: the list of
(token, captured literal) pairs that successive `Scanner::tokenize`
calls produce, whitespace already skipped, up to and including the final
`Eof`. -/
def toks (l : List Char) : List (Token × List Char) :=
  match h : tokenizeLoop l with
  | (t, lit, rest) =>
    if ht : t = Token.Eof then [ (t, lit) ]
    else (t, lit) :: toks rest
termination_by l.length
decreasing_by exact tokenizeLoop_progress _ _ _ _ h ht

/-- An input that is a digit run `ds` surrounded by matched parentheses
and spaces in any arrangement (the shape claimed by the spec's
"optionally surrounded by matched parentheses and whitespace"). -/
inductive Wraps (ds : List Char) : List Char → Prop where
  | base : Wraps ds ds
  | space_left {xs : List Char} : Wraps ds xs → Wraps ds ( ' ' :: xs)
  | space_right {xs : List Char} : Wraps ds xs → Wraps ds (xs ++ [ ' ' ])
  | paren {xs : List Char} : Wraps ds xs → Wraps ds ( '(' :: (xs ++ [ ')' ]))

/-- A decimal digit is none of the seven characters the scanner treats
specially. -/
theorem digit_not_special (c : Char) (hd : c.isDigit = true) :
    c ≠ ' ' ∧ c ≠ '+' ∧ c ≠ '-' ∧ c ≠ '*' ∧ c ≠ '/' ∧ c ≠ '(' ∧ c ≠ ')' := by
  refine ⟨fun h => ?_, fun h => ?_, fun h => ?_, fun h => ?_, fun h => ?_,
    fun h => ?_, fun h => ?_⟩ <;>
    { subst h; exact absurd hd (by decide) }

/-- The maximal digit run of `ds ++ rest` is exactly `ds` when `ds` is
all digits and `rest` does not begin with one. -/
theorem takeWhile_digits_append (ds rest : List Char) (h : isDigits ds = true)
    (hr : headIsDigit rest = false) :
    (ds ++ rest).takeWhile Char.isDigit = ds ∧
      (ds ++ rest).dropWhile Char.isDigit = rest := by
  induction ds with
  | nil =>
    cases rest with
    | nil => simp [List.takeWhile, List.dropWhile]
    | cons r rs =>
      have hrd : r.isDigit = false := by simpa [headIsDigit] using hr
      simp [List.takeWhile_cons, List.dropWhile_cons, hrd]
  | cons d ds ih =>
    simp only [isDigits, List.all_cons, Bool.and_eq_true] at h
    have := ih h.2
    simp [List.takeWhile_cons, List.dropWhile_cons, h.1, this.1, this.2]

theorem tokenizeLoop_space (l : List Char) : tokenizeLoop ( ' ' :: l) = tokenizeLoop l := by
  simp [tokenizeLoop]

/-- A head character that is neither a space nor a digit yields one
single-character token, independent of the rest of the input. -/
theorem tokenizeLoop_single (c : Char) (hs : c ≠ ' ') (hd : c.isDigit = false) :
    ∃ t, t ≠ Token.Eof ∧ t ≠ Token.NumberLiteral ∧ t ≠ Token.Whitespace ∧
      ∀ l : List Char, tokenizeLoop (c :: l) = (t, [], l) := by
  by_cases h1 : c = '+'
  · exact ⟨Token.Plus, by decide, by decide, by decide, fun l => by simp [tokenizeLoop, hs, h1]⟩
  by_cases h2 : c = '-'
  · exact ⟨Token.Minus, by decide, by decide, by decide, fun l => by simp [tokenizeLoop, hs, h1, h2]⟩
  by_cases h3 : c = '*'
  · exact ⟨Token.Mul, by decide, by decide, by decide, fun l => by simp [tokenizeLoop, hs, h1, h2, h3]⟩
  by_cases h4 : c = '/'
  · exact ⟨Token.Div, by decide, by decide, by decide, fun l => by simp [tokenizeLoop, hs, h1, h2, h3, h4]⟩
  by_cases h5 : c = '('
  · exact ⟨Token.RndOpen, by decide, by decide, by decide, fun l => by simp [tokenizeLoop, hs, h1, h2, h3, h4, h5]⟩
  by_cases h6 : c = ')'
  · exact ⟨Token.RndClose, by decide, by decide, by decide, fun l => by simp [tokenizeLoop, hs, h1, h2, h3, h4, h5, h6]⟩
  · exact ⟨Token.Illegal, by decide, by decide, by decide, fun l => by simp [tokenizeLoop, hs, h1, h2, h3, h4, h5, h6, hd]⟩

/-- Scanning from a digit: the token is `NumberLiteral`, the literal is
the maximal digit run, the rest follows it. -/
theorem tokenizeLoop_digit (c : Char) (l : List Char) (hd : c.isDigit = true) :
    tokenizeLoop (c :: l) =
      (Token.NumberLiteral, c :: l.takeWhile Char.isDigit, l.dropWhile Char.isDigit) := by
  obtain ⟨h1, h2, h3, h4, h5, h6, h7⟩ := digit_not_special c hd
  simp [tokenizeLoop, h1, h2, h3, h4, h5, h6, h7, hd]

/-- Scanning `ds ++ rest` for a non-empty all-digit `ds` and a `rest`
not starting with a digit yields the number token with literal `ds`. -/
theorem tokenizeLoop_digits (ds rest : List Char) (hne : ds ≠ []) (h : isDigits ds = true)
    (hr : headIsDigit rest = false) :
    tokenizeLoop (ds ++ rest) = (Token.NumberLiteral, ds, rest) := by
  cases ds with
  | nil => exact absurd rfl hne
  | cons d ds' =>
    simp only [isDigits, List.all_cons, Bool.and_eq_true] at h
    have hta := takeWhile_digits_append ds' rest h.2 hr
    rw [List.cons_append, tokenizeLoop_digit d _ h.1, hta.1, hta.2]

/-- `tokenize` of any scanner state is the canonical state aligned at
its remaining input: the prior literal and current token are
overwritten. -/
theorem tokenize_eq_mkScanner (s : Scanner) : s.tokenize = mkScanner s.remaining := rfl

theorem mkScanner_nil : mkScanner [] = ⟨[], [], Token.Eof⟩ := rfl

theorem mkScanner_space (l : List Char) : mkScanner ( ' ' :: l) = mkScanner l := by
  simp [mkScanner, Scanner.tokenize, tokenizeLoop_space]

theorem mkScanner_minus (l : List Char) : mkScanner ( '-' :: l) = ⟨l, [], Token.Minus⟩ := rfl

theorem mkScanner_digits (ds rest : List Char) (hne : ds ≠ []) (h : isDigits ds = true)
    (hr : headIsDigit rest = false) :
    mkScanner (ds ++ rest) = ⟨rest, ds, Token.NumberLiteral⟩ := by
  simp [mkScanner, Scanner.tokenize, tokenizeLoop_digits ds rest hne h hr]

theorem mkScanner_open (l : List Char) : mkScanner ( '(' :: l) = ⟨l, [], Token.RndOpen⟩ := rfl

theorem mkScanner_close (l : List Char) : mkScanner ( ')' :: l) = ⟨l, [], Token.RndClose⟩ := rfl

/-- When `tokenizeOnce` returns `Whitespace`, `tokenize` carries on from
the advanced state — the loop of the source's `tokenize` iterates. -/
theorem tokenize_skips_whitespace (s s' : Scanner)
    (h : s.tokenizeOnce = (Token.Whitespace, s')) : s.tokenize = s'.tokenize := by
  obtain ⟨rem, lit, cur⟩ := s
  cases rem with
  | nil => simp [Scanner.tokenizeOnce] at h
  | cons c cs =>
    simp only [Scanner.tokenizeOnce] at h
    split_ifs at h with h1 h2 h3 h4 h5 h6 h7 h8 <;> simp_all
    obtain ⟨rfl⟩ := h
    rw [tokenize_eq_mkScanner, tokenize_eq_mkScanner]
    simp [h1, mkScanner_space]

/-- When `tokenizeOnce` returns anything but `Whitespace`, `tokenize`
stops there and stores that token as the current one. -/
theorem tokenize_stores_step (s s' : Scanner) (t : Token)
    (h : s.tokenizeOnce = (t, s')) (ht : t ≠ Token.Whitespace) :
    s.tokenize = { s' with currentToken := t } := by
  obtain ⟨rem, lit, cur⟩ := s
  cases rem with
  | nil =>
    simp only [Scanner.tokenizeOnce] at h
    obtain ⟨rfl, rfl⟩ := Prod.mk.injEq .. ▸ h
    rfl
  | cons c cs =>
    simp only [Scanner.tokenizeOnce] at h
    split_ifs at h with h1 h2 h3 h4 h5 h6 h7 h8 <;>
      obtain ⟨rfl, rfl⟩ := Prod.mk.injEq .. ▸ h
    · exact absurd rfl ht
    all_goals simp_all [Scanner.tokenize, tokenizeLoop]

theorem toks_eof (l lit rest : List Char) (h : tokenizeLoop l = (Token.Eof, lit, rest)) :
    toks l = [ (Token.Eof, lit) ] := by
  rw [toks.eq_def]
  split
  rename_i t' lit' rest' heq
  rw [h] at heq
  obtain ⟨rfl, rfl, rfl⟩ := Prod.mk.injEq .. ▸ heq
  simp

theorem toks_step (l : List Char) (t : Token) (lit rest : List Char)
    (h : tokenizeLoop l = (t, lit, rest)) (ht : t ≠ Token.Eof) :
    toks l = (t, lit) :: toks rest := by
  rw [toks.eq_def]
  split
  rename_i t' lit' rest' heq
  rw [h] at heq
  obtain ⟨rfl, rfl, rfl⟩ := Prod.mk.injEq .. ▸ heq
  simp [ht]

theorem toks_space (l : List Char) : toks ( ' ' :: l) = toks l := by
  rcases h : tokenizeLoop l with ⟨t, lit, rest⟩
  have h' : tokenizeLoop ( ' ' :: l) = (t, lit, rest) := by rw [tokenizeLoop_space]; exact h
  by_cases ht : t = Token.Eof
  · subst ht
    rw [toks_eof l lit rest h, toks_eof ( ' ' :: l) lit rest h']
  · rw [toks_step l t lit rest h ht, toks_step ( ' ' :: l) t lit rest h' ht]

theorem except_bind_ok {ε α β : Type} (a : α) (g : α → Except ε β) :
    (Except.ok a >>= g : Except ε β) = g a := rfl

theorem exprP_unfold (f : Nat) (s : Scanner) (hf : 0 < f) :
    exprP f s = addExprP (f - 1) s := by
  cases f with
  | zero => omega
  | succ f => simp [exprP]

theorem addExprP_unfold (f : Nat) (s : Scanner) (hf : 0 < f) :
    addExprP f s = mulExprP (f - 1) s >>= fun p => addLoopP (f - 1) p.1 p.2 := by
  cases f with
  | zero => omega
  | succ f => rfl

theorem mulExprP_unfold (f : Nat) (s : Scanner) (hf : 0 < f) :
    mulExprP f s = primaryExprP (f - 1) s >>= fun p => mulLoopP (f - 1) p.1 p.2 := by
  cases f with
  | zero => omega
  | succ f => rfl

theorem primaryExprP_num (f : Nat) (s : Scanner) (v : Int) (hf : 0 < f)
    (hcur : s.currentToken = Token.NumberLiteral) (hdec : decodeLit s.literal = some v) :
    primaryExprP f s = Except.ok (Expr.NumberLiteral v, mkScanner s.remaining) := by
  cases f with
  | zero => omega
  | succ f => simp [primaryExprP, hcur, hdec, tokenize_eq_mkScanner]

theorem primaryExprP_paren (f : Nat) (s s' : Scanner) (e : Expr) (hf : 0 < f)
    (hcur : s.currentToken = Token.RndOpen)
    (hsub : exprP (f - 1) (mkScanner s.remaining) = Except.ok (e, s'))
    (hclose : s'.currentToken = Token.RndClose) :
    primaryExprP f s = Except.ok (e, s') := by
  cases f with
  | zero => omega
  | succ f =>
    have hsub' : exprP f (mkScanner s.remaining) = Except.ok (e, s') := by
      simpa using hsub
    simp [primaryExprP, hcur, tokenize_eq_mkScanner, hsub', except_bind_ok,
      consumeToken, hclose]

theorem mulLoopP_exit (f : Nat) (lhs : Expr) (s : Scanner) (hf : 0 < f)
    (h1 : s.currentToken ≠ Token.Mul) (h2 : s.currentToken ≠ Token.Div) :
    mulLoopP f lhs s = Except.ok (lhs, s) := by
  cases f with
  | zero => omega
  | succ f => cases h : s.currentToken <;> simp_all [mulLoopP]

theorem addLoopP_exit (f : Nat) (lhs : Expr) (s : Scanner) (hf : 0 < f)
    (h1 : s.currentToken ≠ Token.Plus) (h2 : s.currentToken ≠ Token.Minus) :
    addLoopP f lhs s = Except.ok (lhs, s) := by
  cases f with
  | zero => omega
  | succ f => cases h : s.currentToken <;> simp_all [addLoopP]

theorem addLoopP_minus (f : Nat) (lhs : Expr) (s : Scanner) (hf : 0 < f)
    (h : s.currentToken = Token.Minus) :
    addLoopP f lhs s =
      mulExprP (f - 1) (mkScanner s.remaining) >>= fun p =>
        addLoopP (f - 1) (Expr.MinusExpr lhs p.1) p.2 := by
  cases f with
  | zero => omega
  | succ f => simp [addLoopP, h, tokenize_eq_mkScanner]

theorem mulExprP_num (f : Nat) (s : Scanner) (v : Int) (hf : 2 ≤ f)
    (hcur : s.currentToken = Token.NumberLiteral) (hdec : decodeLit s.literal = some v)
    (h1 : (mkScanner s.remaining).currentToken ≠ Token.Mul)
    (h2 : (mkScanner s.remaining).currentToken ≠ Token.Div) :
    mulExprP f s = Except.ok (Expr.NumberLiteral v, mkScanner s.remaining) := by
  cases f with
  | zero => omega
  | succ f =>
    have hp := primaryExprP_num f s v (by omega) hcur hdec
    have hl := mulLoopP_exit f (Expr.NumberLiteral v) (mkScanner s.remaining)
      (by omega) h1 h2
    simp [mulExprP, hp, except_bind_ok, hl]

theorem except_bind_error {ε α β : Type} (e : ε) (g : α → Except ε β) :
    (Except.error e >>= g : Except ε β) = Except.error e := rfl

/-- Truncating division, spelled out: the quotient's magnitude is the
quotient of the magnitudes (rounded down) and its sign is the product of
the operands' signs — exactly C++ `int` division. -/
theorem tdiv_eq_sign_mul (a b : Int) :
    Int.tdiv a b = Int.sign (a * b) * ((a.natAbs / b.natAbs : Nat) : Int) := by
  cases a with
  | ofNat m =>
    cases b with
    | ofNat n =>
      cases m with
      | zero =>
        have h0 : Int.ofNat 0 = (0 : Int) := rfl
        simp [h0, Int.zero_tdiv, Nat.zero_div]
      | succ m =>
        cases n with
        | zero =>
          have h0 : Int.ofNat 0 = (0 : Int) := rfl
          simp [h0, Int.tdiv_zero, Nat.div_zero]
        | succ n =>
          have hpos : (0 : Int) < Int.ofNat (m + 1) * Int.ofNat (n + 1) := by
            rw [show Int.ofNat (m + 1) * Int.ofNat (n + 1) = Int.ofNat ((m + 1) * (n + 1))
              from rfl]
            exact Int.ofNat_pos.mpr (Nat.mul_pos (Nat.succ_pos m) (Nat.succ_pos n))
          rw [show Int.tdiv (Int.ofNat (m + 1)) (Int.ofNat (n + 1))
              = Int.ofNat ((m + 1) / (n + 1)) from rfl,
            Int.sign_eq_one_iff_pos.mpr hpos, one_mul]
          rfl
    | negSucc n =>
      cases m with
      | zero =>
        have h0 : Int.ofNat 0 = (0 : Int) := rfl
        simp [h0, Int.zero_tdiv, Nat.zero_div]
      | succ m =>
        have hneg : Int.ofNat (m + 1) * Int.negSucc n < 0 :=
          mul_neg_of_pos_of_neg (Int.ofNat_pos.mpr (Nat.succ_pos m)) (Int.negSucc_lt_zero n)
        rw [show Int.tdiv (Int.ofNat (m + 1)) (Int.negSucc n)
            = -Int.ofNat ((m + 1) / (n + 1)) from rfl,
          Int.sign_eq_neg_one_iff_neg.mpr hneg, neg_one_mul]
        rfl
  | negSucc m =>
    cases b with
    | ofNat n =>
      cases n with
      | zero =>
        have h0 : Int.ofNat 0 = (0 : Int) := rfl
        simp [h0, Int.tdiv_zero, Nat.div_zero]
      | succ n =>
        have hneg : Int.negSucc m * Int.ofNat (n + 1) < 0 :=
          mul_neg_of_neg_of_pos (Int.negSucc_lt_zero m) (Int.ofNat_pos.mpr (Nat.succ_pos n))
        rw [show Int.tdiv (Int.negSucc m) (Int.ofNat (n + 1))
            = -Int.ofNat ((m + 1) / (n + 1)) from rfl,
          Int.sign_eq_neg_one_iff_neg.mpr hneg, neg_one_mul]
        rfl
    | negSucc n =>
      have hpos : (0 : Int) < Int.negSucc m * Int.negSucc n :=
        mul_pos_of_neg_of_neg (Int.negSucc_lt_zero m) (Int.negSucc_lt_zero n)
      rw [show Int.tdiv (Int.negSucc m) (Int.negSucc n)
          = Int.ofNat ((m + 1) / (n + 1)) from rfl,
        Int.sign_eq_one_iff_pos.mpr hpos, one_mul]
      rfl

/-- Evaluating a division node whose operands evaluate to `a` and a
non-zero `b` yields the truncating quotient. -/
theorem evaluate_div_ok (l r : Expr) (a b : Int) (hl : Calculator.evaluate l = Except.ok a)
    (hr : Calculator.evaluate r = Except.ok b) (hb : b ≠ 0) :
    Calculator.evaluate (Expr.DivExpr l r) = Except.ok (Int.tdiv a b) := by
  simp [Calculator.evaluate, hl, hr, except_bind_ok, hb]

/-- Evaluating a division node whose divisor evaluates to zero is the
fatal arithmetic error. -/
theorem evaluate_div_zero (l r : Expr) (a : Int) (hl : Calculator.evaluate l = Except.ok a)
    (hr : Calculator.evaluate r = Except.ok 0) :
    Calculator.evaluate (Expr.DivExpr l r) = Except.error EvalError.divisionByZero := by
  simp [Calculator.evaluate, hl, hr, except_bind_ok]

theorem rawStream_ends_aux (n : Nat) :
    ∀ l : List Char, l.length ≤ n → ∃ ts : List Token, rawStream l = ts ++ [Token.Eof] := by
  induction n with
  | zero =>
    intro l h
    cases l with
    | nil => exact ⟨[], by rw [rawStream.eq_def]; rfl⟩
    | cons c cs => simp at h
  | succ n ih =>
    intro l h
    cases l with
    | nil => exact ⟨[], by rw [rawStream.eq_def]; rfl⟩
    | cons c cs =>
      simp only [List.length_cons] at h
      rw [rawStream.eq_def]
      dsimp only
      split_ifs
      all_goals
        first
        | (obtain ⟨ts, hts⟩ := ih cs (by omega);
           exact ⟨_ :: ts, by rw [hts, List.cons_append]⟩)
        | (obtain ⟨ts, hts⟩ := ih (cs.dropWhile Char.isDigit)
             (Nat.le_trans (length_dropWhile_digits_le cs) (by omega));
           exact ⟨_ :: ts, by rw [hts, List.cons_append]⟩)

/-- C1.  The non-parenthesized precedence example does evaluate to `14`,
but the parenthesized one evaluates to `5`, not the claimed `20`:
`consumeToken` checks the closing `)` without consuming it, so the
parser stops right after the parenthesized sub-expression and the
trailing `* 4` is never parsed.  This contradicts the spec's own test
(`"(2 + 3) * 4"` evaluates to `20`) and the evident intent of a routine
named `consumeToken`, so it is a defect of the code. -/
theorem precedence_example_and_paren_slip :
    runString "2 + 3 * 4" = Except.ok 14 ∧
    runString "(2 + 3) * 4" = Except.ok 5 ∧
    ExprParser.parse ("(2 + 3) * 4".data) =
      Except.ok (Expr.PlusExpr (Expr.NumberLiteral 2) (Expr.NumberLiteral 3),
        ⟨ [ ' ', '*', ' ', '4' ], [], Token.RndClose⟩) := by
  refine ⟨by decide, by decide, by decide⟩

/-- C4.  Evaluating a `DivExpr` node divides the evaluated operands with
truncation toward zero: the result of `Int.tdiv` has the magnitude
`|a| / |b|` (rounded down) and the sign of `a * b`; in particular
`"7 / 2"` evaluates to `3`. -/
theorem divide_truncates_toward_zero :
    (∀ l r : Expr, ∀ a b : Int, Calculator.evaluate l = Except.ok a →
        Calculator.evaluate r = Except.ok b → b ≠ 0 →
        Calculator.evaluate (Expr.DivExpr l r) = Except.ok (Int.tdiv a b)) ∧
    (∀ a b : Int, Int.tdiv a b = Int.sign (a * b) * ((a.natAbs / b.natAbs : Nat) : Int)) ∧
    runString "7 / 2" = Except.ok 3 := by
  exact ⟨evaluate_div_ok, tdiv_eq_sign_mul, by decide⟩

theorem divide_truncates_toward_zero_witness :
    Calculator.evaluate (Expr.NumberLiteral 7) = Except.ok 7 ∧
    Calculator.evaluate (Expr.NumberLiteral 2) = Except.ok 2 ∧
    (2 : Int) ≠ 0 ∧
    Calculator.evaluate (Expr.DivExpr (Expr.NumberLiteral 7) (Expr.NumberLiteral 2)) =
      Except.ok (Int.tdiv 7 2) :=
  ⟨by decide, by decide, by decide,
    divide_truncates_toward_zero.1 (Expr.NumberLiteral 7) (Expr.NumberLiteral 2) 7 2
      (by decide) (by decide) (by decide)⟩

/-- C5.  A division whose right operand evaluates to zero is the fatal
arithmetic error and never an `ok` value; in particular `"1 / 0"` is a
fatal error for the whole run. -/
theorem division_by_zero_fatal :
    (∀ l r : Expr, ∀ a : Int, Calculator.evaluate l = Except.ok a →
        Calculator.evaluate r = Except.ok 0 →
        Calculator.evaluate (Expr.DivExpr l r) = Except.error EvalError.divisionByZero) ∧
    (∀ l r : Expr, Calculator.evaluate r = Except.ok 0 →
        ∀ v : Int, Calculator.evaluate (Expr.DivExpr l r) ≠ Except.ok v) ∧
    runString "1 / 0" = Except.error (CalcError.evalErr EvalError.divisionByZero) := by
  refine ⟨evaluate_div_zero, ?_, by decide⟩
  intro l r hr v
  cases hl : Calculator.evaluate l with
  | error e => simp [Calculator.evaluate, hl, except_bind_error]
  | ok a => simp [evaluate_div_zero l r a hl hr]

theorem division_by_zero_fatal_witness :
    Calculator.evaluate (Expr.NumberLiteral 0) = Except.ok 0 ∧
    Calculator.evaluate (Expr.DivExpr (Expr.NumberLiteral 1) (Expr.NumberLiteral 0)) =
      Except.error EvalError.divisionByZero :=
  ⟨by decide,
    division_by_zero_fatal.1 (Expr.NumberLiteral 1) (Expr.NumberLiteral 0) 1
      (by decide) (by decide)⟩

/-- C6.  Scanning is total and deterministic: `tokenizeOnce` (a total
function) strictly consumes input on every non-`Eof` step and leaves the
cursor unchanged at end of input; an unrecognized character yields
`Illegal` and advances the cursor by exactly one; the stream of repeated
`tokenizeOnce` results (`rawStream`, which agrees with `tokenizeOnce`
step by step) always terminates and ends in `Eof`. -/
theorem scanning_total_and_progresses :
    (∀ s s' : Scanner, ∀ t : Token, s.tokenizeOnce = (t, s') → t ≠ Token.Eof →
        s'.remaining.length < s.remaining.length) ∧
    (∀ s s' : Scanner, ∀ t : Token, s.tokenizeOnce = (t, s') → t = Token.Eof →
        s'.remaining = s.remaining) ∧
    (∀ s : Scanner, ∀ c : Char, ∀ cs : List Char, s.remaining = c :: cs →
        c ≠ ' ' → c ≠ '+' → c ≠ '-' → c ≠ '*' → c ≠ '/' → c ≠ '(' → c ≠ ')' →
        c.isDigit = false →
        s.tokenizeOnce = (Token.Illegal, { s with remaining := cs, literal := [] })) ∧
    (∀ s s' : Scanner, ∀ t : Token, s.tokenizeOnce = (t, s') →
        rawStream s.remaining =
          (if t = Token.Eof then [Token.Eof] else t :: rawStream s'.remaining)) ∧
    (∀ l : List Char, ∃ ts : List Token, rawStream l = ts ++ [Token.Eof]) := by
  refine ⟨?_, ?_, ?_, ?_, fun l => rawStream_ends_aux l.length l le_rfl⟩
  · intro s s' t h ht
    obtain ⟨rem, lit, cur⟩ := s
    cases rem with
    | nil =>
      simp only [Scanner.tokenizeOnce] at h
      obtain ⟨rfl, rfl⟩ := Prod.mk.injEq .. ▸ h
      exact absurd rfl ht
    | cons c cs =>
      simp only [Scanner.tokenizeOnce] at h
      split_ifs at h <;> obtain ⟨rfl, rfl⟩ := Prod.mk.injEq .. ▸ h <;>
        simp only [List.length_cons]
      any_goals omega
      exact Nat.lt_succ_of_le (length_dropWhile_digits_le cs)
  · intro s s' t h ht
    subst ht
    obtain ⟨rem, lit, cur⟩ := s
    cases rem with
    | nil =>
      simp only [Scanner.tokenizeOnce] at h
      obtain ⟨_, rfl⟩ := Prod.mk.injEq .. ▸ h
      rfl
    | cons c cs =>
      simp only [Scanner.tokenizeOnce] at h
      split_ifs at h <;> obtain ⟨h1, rfl⟩ := Prod.mk.injEq .. ▸ h <;> simp_all
  · intro s c cs hrem h1 h2 h3 h4 h5 h6 h7 h8
    obtain ⟨rem, lit, cur⟩ := s
    simp only at hrem
    subst hrem
    simp [Scanner.tokenizeOnce, h1, h2, h3, h4, h5, h6, h7, h8]
  · intro s s' t h
    obtain ⟨rem, lit, cur⟩ := s
    cases rem with
    | nil =>
      simp only [Scanner.tokenizeOnce] at h
      obtain ⟨rfl, rfl⟩ := Prod.mk.injEq .. ▸ h
      rw [rawStream.eq_def]
      simp
    | cons c cs =>
      simp only [Scanner.tokenizeOnce] at h
      split_ifs at h <;> obtain ⟨rfl, rfl⟩ := Prod.mk.injEq .. ▸ h <;>
        rw [rawStream.eq_def] <;> dsimp only <;> simp_all

theorem scanning_total_and_progresses_witness :
    (Scanner.mk [ 'a' ] [] Token.Eof).tokenizeOnce
      = (Token.Illegal, Scanner.mk [] [] Token.Eof) ∧
    Token.Illegal ≠ Token.Eof ∧
    (Scanner.mk [] [] Token.Eof).remaining.length
      < (Scanner.mk [ 'a' ] [] Token.Eof).remaining.length :=
  ⟨by decide, by decide,
    scanning_total_and_progresses.1 (Scanner.mk [ 'a' ] [] Token.Eof)
      (Scanner.mk [] [] Token.Eof) Token.Illegal (by decide) (by decide)⟩

/-- C8.  A primary expression demanded at any token other than a number
or `(` is the fatal `Primary expression expected` error; a missing
expected token (such as the `)` after a parenthesized sub-expression) is
the fatal `Unexpected token` error naming the found and expected tokens;
no tree is returned on either.  `"(2 + 3"`, `"+"` and `""` all fail so. -/
theorem syntax_error_on_malformed :
    (∀ f : Nat, ∀ s : Scanner, s.currentToken ≠ Token.NumberLiteral →
        s.currentToken ≠ Token.RndOpen →
        primaryExprP (f + 1) s = Except.error SyntaxError.primaryExpected) ∧
    (∀ t : Token, ∀ s : Scanner, s.currentToken ≠ t →
        consumeToken t s = Except.error (SyntaxError.unexpectedToken s.currentToken t)) ∧
    runString "(2 + 3" = Except.error (CalcError.syntaxErr
      (SyntaxError.unexpectedToken Token.Eof Token.RndClose)) ∧
    runString "+" = Except.error (CalcError.syntaxErr SyntaxError.primaryExpected) ∧
    runString "" = Except.error (CalcError.syntaxErr SyntaxError.primaryExpected) := by
  refine ⟨?_, ?_, by decide, by decide, by decide⟩
  · intro f s hn ho
    cases h : s.currentToken <;> simp_all [primaryExprP]
  · intro t s h
    simp [consumeToken, h]

theorem syntax_error_on_malformed_witness :
    (mkScanner ( "+".data)).currentToken ≠ Token.NumberLiteral ∧
    (mkScanner ( "+".data)).currentToken ≠ Token.RndOpen ∧
    primaryExprP 1 (mkScanner ( "+".data)) = Except.error SyntaxError.primaryExpected :=
  ⟨by decide, by decide,
    syntax_error_on_malformed.1 0 (mkScanner ( "+".data)) (by decide) (by decide)⟩

/-- C9.  A number token whose captured digit run decodes to no `int`
value (it exceeds `INT_MAX`) makes the parser fail with the explicit
out-of-range error — the value is never truncated or wrapped; in
particular `"2147483648"` aborts so. -/
theorem overflow_literal_fatal :
    (∀ f : Nat, ∀ s : Scanner, s.currentToken = Token.NumberLiteral →
        decodeLit s.literal = none →
        primaryExprP (f + 1) s = Except.error (SyntaxError.literalOutOfRange s.literal)) ∧
    (∀ l : List Char, l ≠ [] → intMax < digitsToNat l → decodeLit l = none) ∧
    runString "2147483648" = Except.error (CalcError.syntaxErr
      (SyntaxError.literalOutOfRange [ '2', '1', '4', '7', '4', '8', '3', '6', '4', '8' ])) := by
  refine ⟨?_, ?_, by decide⟩
  · intro f s hcur hdec
    simp [primaryExprP, hcur, hdec]
  · intro l hne hlt
    simp only [decodeLit, if_neg hne]
    rw [if_neg (by omega)]

theorem overflow_literal_fatal_witness :
    ([ '2', '1', '4', '7', '4', '8', '3', '6', '4', '8' ] : List Char) ≠ [] ∧
    intMax < digitsToNat [ '2', '1', '4', '7', '4', '8', '3', '6', '4', '8' ] ∧
    decodeLit [ '2', '1', '4', '7', '4', '8', '3', '6', '4', '8' ] = none :=
  ⟨by decide, by decide,
    overflow_literal_fatal.2.1 [ '2', '1', '4', '7', '4', '8', '3', '6', '4', '8' ]
      (by decide) (by decide)⟩

/-- C10.  `parse` returns whatever `expr` produced with no end-of-input
check, so an input whose proper prefix is a complete expression parses
to that prefix's tree and the trailing tokens stay unread in the final
scanner state: `"2 3"` parses to the literal `2` with the token `3`
still pending, `"2+3)"` parses to `2+3` with the `)` pending, and both
runs succeed. -/
theorem trailing_input_ignored :
    (∀ input : List Char, ∀ e : Expr, ∀ s' : Scanner,
        exprP (4 * (input.length + 1)) (mkScanner input) = Except.ok (e, s') →
        s'.currentToken ≠ Token.Eof →
        ExprParser.parse input = Except.ok (e, s')) ∧
    ExprParser.parse ( "2 3".data) = Except.ok (Expr.NumberLiteral 2,
      ⟨[], [ '3' ], Token.NumberLiteral⟩) ∧
    ExprParser.parse ( "2+3)".data) = Except.ok
      (Expr.PlusExpr (Expr.NumberLiteral 2) (Expr.NumberLiteral 3),
        ⟨[], [], Token.RndClose⟩) ∧
    runString "2 3" = Except.ok 2 ∧
    runString "2+3)" = Except.ok 5 := by
  exact ⟨fun input e s' h _ => h, by decide, by decide, by decide, by decide⟩

theorem trailing_input_ignored_witness :
    exprP (4 * (( "2 3".data).length + 1)) (mkScanner ( "2 3".data)) =
      Except.ok (Expr.NumberLiteral 2, ⟨[], [ '3' ], Token.NumberLiteral⟩) ∧
    (Scanner.mk [] [ '3' ] Token.NumberLiteral).currentToken ≠ Token.Eof ∧
    ExprParser.parse ( "2 3".data) =
      Except.ok (Expr.NumberLiteral 2, ⟨[], [ '3' ], Token.NumberLiteral⟩) :=
  ⟨by decide, by decide,
    trailing_input_ignored.1 ( "2 3".data) (Expr.NumberLiteral 2)
      (Scanner.mk [] [ '3' ] Token.NumberLiteral) (by decide) (by decide)⟩

/-- C3, counterexample.  An input that is one decimal integer literal
(ten digits, value `2147483648`) on which parsing does not succeed:
decoding exceeds `INT_MAX` and the run aborts instead of yielding the
literal's value. -/
theorem huge_literal_input_aborts :
    runString "2147483648" ≠ Except.ok 2147483648 ∧
    runString "2147483648" = Except.error (CalcError.syntaxErr
      (SyntaxError.literalOutOfRange [ '2', '1', '4', '7', '4', '8', '3', '6', '4', '8' ])) := by
  exact ⟨by decide, by decide⟩

/-- C7, counterexample.  `"2 3"` differs from `"23"` only by one
inserted space, yet the two runs disagree: the space splits the digit
run, `"23"` evaluates to `23` while `"2 3"` parses only the literal `2`. -/
theorem split_literal_changes_result :
    runString "2 3" ≠ runString "23" ∧
    runString "23" = Except.ok 23 ∧ runString "2 3" = Except.ok 2 := by
  exact ⟨by decide, by decide, by decide⟩

/-- Parsing `ds1 - ds2 - ds3` (arbitrary digit runs, single spaces
around the operators) folds left: the tree is `(ds1 - ds2) - ds3`. -/
theorem subtraction_chain_parses (f : Nat) (ds1 ds2 ds3 : List Char) (v1 v2 v3 : Int)
    (hf : 8 ≤ f)
    (g1 : isDigits ds1 = true) (g2 : isDigits ds2 = true) (g3 : isDigits ds3 = true)
    (n1 : ds1 ≠ []) (n2 : ds2 ≠ []) (n3 : ds3 ≠ [])
    (d1 : decodeLit ds1 = some v1) (d2 : decodeLit ds2 = some v2)
    (d3 : decodeLit ds3 = some v3) :
    exprP f (mkScanner (ds1 ++ ' ' :: '-' :: ' ' :: (ds2 ++ ' ' :: '-' :: ' ' :: ds3))) =
      Except.ok (Expr.MinusExpr (Expr.MinusExpr (Expr.NumberLiteral v1) (Expr.NumberLiteral v2))
        (Expr.NumberLiteral v3), ⟨[], [], Token.Eof⟩) := by
  have hmk0 : mkScanner (ds1 ++ ' ' :: '-' :: ' ' :: (ds2 ++ ' ' :: '-' :: ' ' :: ds3)) =
      ⟨ ' ' :: '-' :: ' ' :: (ds2 ++ ' ' :: '-' :: ' ' :: ds3), ds1, Token.NumberLiteral⟩ :=
    mkScanner_digits _ _ n1 g1 rfl
  have hmk1 : mkScanner ( ' ' :: '-' :: ' ' :: (ds2 ++ ' ' :: '-' :: ' ' :: ds3)) =
      ⟨ ' ' :: (ds2 ++ ' ' :: '-' :: ' ' :: ds3), [], Token.Minus⟩ := by
    rw [mkScanner_space, mkScanner_minus]
  have hmk2 : mkScanner ( ' ' :: (ds2 ++ ' ' :: '-' :: ' ' :: ds3)) =
      ⟨ ' ' :: '-' :: ' ' :: ds3, ds2, Token.NumberLiteral⟩ := by
    rw [mkScanner_space]
    exact mkScanner_digits _ _ n2 g2 rfl
  have hmk3 : mkScanner ( ' ' :: '-' :: ' ' :: ds3) = ⟨ ' ' :: ds3, [], Token.Minus⟩ := by
    rw [mkScanner_space, mkScanner_minus]
  have hmk4 : mkScanner ( ' ' :: ds3) = ⟨[], ds3, Token.NumberLiteral⟩ := by
    rw [mkScanner_space]
    have := mkScanner_digits ds3 [] n3 g3 rfl
    rwa [List.append_nil] at this
  have hm1 : mulExprP (f - 1 - 1) ⟨ ' ' :: '-' :: ' ' :: (ds2 ++ ' ' :: '-' :: ' ' :: ds3),
      ds1, Token.NumberLiteral⟩ =
      Except.ok (Expr.NumberLiteral v1,
        ⟨ ' ' :: (ds2 ++ ' ' :: '-' :: ' ' :: ds3), [], Token.Minus⟩) := by
    have := mulExprP_num (f - 1 - 1)
      ⟨ ' ' :: '-' :: ' ' :: (ds2 ++ ' ' :: '-' :: ' ' :: ds3), ds1, Token.NumberLiteral⟩
      v1 (by omega) rfl d1 (by rw [hmk1]; simp) (by rw [hmk1]; simp)
    rwa [hmk1] at this
  have hm2 : mulExprP (f - 1 - 1 - 1) ⟨ ' ' :: '-' :: ' ' :: ds3, ds2, Token.NumberLiteral⟩ =
      Except.ok (Expr.NumberLiteral v2, ⟨ ' ' :: ds3, [], Token.Minus⟩) := by
    have := mulExprP_num (f - 1 - 1 - 1)
      ⟨ ' ' :: '-' :: ' ' :: ds3, ds2, Token.NumberLiteral⟩
      v2 (by omega) rfl d2 (by rw [hmk3]; simp) (by rw [hmk3]; simp)
    rwa [hmk3] at this
  have hm3 : mulExprP (f - 1 - 1 - 1 - 1) ⟨[], ds3, Token.NumberLiteral⟩ =
      Except.ok (Expr.NumberLiteral v3, ⟨[], [], Token.Eof⟩) := by
    exact mulExprP_num (f - 1 - 1 - 1 - 1) ⟨[], ds3, Token.NumberLiteral⟩
      v3 (by omega) rfl d3 (by simp [mkScanner_nil]) (by simp [mkScanner_nil])
  rw [hmk0, exprP_unfold f _ (by omega), addExprP_unfold (f - 1) _ (by omega)]
  rw [hm1, except_bind_ok]
  rw [addLoopP_minus (f - 1 - 1) _ _ (by omega) rfl]
  dsimp only
  rw [hmk2, hm2, except_bind_ok]
  rw [addLoopP_minus (f - 1 - 1 - 1) _ _ (by omega) rfl]
  dsimp only
  rw [hmk4, hm3, except_bind_ok]
  rw [addLoopP_exit (f - 1 - 1 - 1 - 1) _ _ (by omega) (by simp) (by simp)]

/-- C2.  Chains of the same precedence fold left-associatively: for any
digit runs `ds1 ds2 ds3` (decoding to `v1 v2 v3`), parsing
`ds1 - ds2 - ds3` yields the tree `(ds1 - ds2) - ds3` and the run
evaluates to `(v1 - v2) - v3`; in particular `"8 - 3 - 2"` evaluates to
`3`, not `7`. -/
theorem subtraction_folds_left (ds1 ds2 ds3 : List Char) (v1 v2 v3 : Int)
    (g1 : isDigits ds1 = true) (g2 : isDigits ds2 = true) (g3 : isDigits ds3 = true)
    (n1 : ds1 ≠ []) (n2 : ds2 ≠ []) (n3 : ds3 ≠ [])
    (d1 : decodeLit ds1 = some v1) (d2 : decodeLit ds2 = some v2)
    (d3 : decodeLit ds3 = some v3) :
    ExprParser.parse (ds1 ++ ' ' :: '-' :: ' ' :: (ds2 ++ ' ' :: '-' :: ' ' :: ds3)) =
      Except.ok (Expr.MinusExpr (Expr.MinusExpr (Expr.NumberLiteral v1) (Expr.NumberLiteral v2))
        (Expr.NumberLiteral v3), ⟨[], [], Token.Eof⟩) ∧
    run (ds1 ++ ' ' :: '-' :: ' ' :: (ds2 ++ ' ' :: '-' :: ' ' :: ds3)) =
      Except.ok (v1 - v2 - v3) ∧
    runString "8 - 3 - 2" = Except.ok 3 := by
  have hparse : ExprParser.parse (ds1 ++ ' ' :: '-' :: ' ' :: (ds2 ++ ' ' :: '-' :: ' ' :: ds3)) =
      Except.ok (Expr.MinusExpr (Expr.MinusExpr (Expr.NumberLiteral v1) (Expr.NumberLiteral v2))
        (Expr.NumberLiteral v3), ⟨[], [], Token.Eof⟩) := by
    have hf8 : 8 ≤ 4 * ((ds1 ++ ' ' :: '-' :: ' ' :: (ds2 ++ ' ' :: '-' :: ' ' :: ds3)).length + 1) := by
      simp only [List.length_append, List.length_cons]
      omega
    exact subtraction_chain_parses _ ds1 ds2 ds3 v1 v2 v3 hf8 g1 g2 g3 n1 n2 n3 d1 d2 d3
  refine ⟨hparse, ?_, by decide⟩
  simp only [run, hparse]
  simp [Calculator.evaluate, except_bind_ok]

/-- Core of C3: parsing a wrapped digit run followed by a suitable
`rest` yields the bare `NumberLiteral` leaf (parentheses are structural
only), and the final scanner state either sits right after `rest`'s
first token or still holds an unconsumed `)` as current token (the
latter because `consumeToken` checks `)` without consuming it). -/
theorem wraps_parse (ds : List Char) (v : Int) (hdig : isDigits ds = true) (hne : ds ≠ [])
    (hv : decodeLit ds = some v) :
    ∀ xs : List Char, Wraps ds xs → ∀ rest : List Char, ∀ f : Nat,
      headIsDigit rest = false →
      (mkScanner rest).currentToken ≠ Token.Plus →
      (mkScanner rest).currentToken ≠ Token.Minus →
      (mkScanner rest).currentToken ≠ Token.Mul →
      (mkScanner rest).currentToken ≠ Token.Div →
      2 * xs.length + 2 ≤ f →
      ∃ s' : Scanner,
        exprP f (mkScanner (xs ++ rest)) = Except.ok (Expr.NumberLiteral v, s') ∧
          (s' = mkScanner rest ∨ s'.currentToken = Token.RndClose) := by
  intro xs hw
  induction hw with
  | base =>
    intro rest f hrd hp hm hmu hdv hf
    have hlen : 0 < ds.length := List.length_pos.mpr hne
    have hmk : mkScanner (ds ++ rest) = ⟨rest, ds, Token.NumberLiteral⟩ :=
      mkScanner_digits _ _ hne hdig hrd
    refine ⟨mkScanner rest, ?_, Or.inl rfl⟩
    rw [hmk, exprP_unfold f _ (by omega), addExprP_unfold (f - 1) _ (by omega)]
    have hm1 : mulExprP (f - 1 - 1) ⟨rest, ds, Token.NumberLiteral⟩ =
        Except.ok (Expr.NumberLiteral v, mkScanner rest) :=
      mulExprP_num (f - 1 - 1) ⟨rest, ds, Token.NumberLiteral⟩ v (by omega) rfl hv hmu hdv
    rw [hm1, except_bind_ok]
    exact addLoopP_exit (f - 1 - 1) _ _ (by omega) hp hm
  | @space_left xs hw ih =>
    intro rest f hrd hp hm hmu hdv hf
    have hcons : ( ' ' :: xs) ++ rest = ' ' :: (xs ++ rest) := rfl
    rw [hcons, mkScanner_space]
    exact ih rest f hrd hp hm hmu hdv
      (by simp only [List.length_cons] at hf; omega)
  | @space_right xs hw ih =>
    intro rest f hrd hp hm hmu hdv hf
    have hassoc : (xs ++ [ ' ' ]) ++ rest = xs ++ ( ' ' :: rest) := by simp
    rw [hassoc]
    have hmkeq : mkScanner ( ' ' :: rest) = mkScanner rest := mkScanner_space rest
    obtain ⟨s', hs', hor⟩ := ih ( ' ' :: rest) f rfl
      (by rw [hmkeq]; exact hp) (by rw [hmkeq]; exact hm)
      (by rw [hmkeq]; exact hmu) (by rw [hmkeq]; exact hdv)
      (by simp only [List.length_append, List.length_cons] at hf ⊢; omega)
    refine ⟨s', hs', ?_⟩
    rcases hor with h | h
    · exact Or.inl (by rw [h, hmkeq])
    · exact Or.inr h
  | @paren xs hw ih =>
    intro rest f hrd hp hm hmu hdv hf
    simp only [List.length_cons, List.length_append, List.length_singleton] at hf
    have hshape : ( '(' :: (xs ++ [ ')' ])) ++ rest = '(' :: (xs ++ ( ')' :: rest)) := by simp
    rw [hshape, mkScanner_open]
    obtain ⟨s'', hs'', hor⟩ := ih ( ')' :: rest) (f - 1 - 1 - 1 - 1) rfl
      (by rw [mkScanner_close]; simp) (by rw [mkScanner_close]; simp)
      (by rw [mkScanner_close]; simp) (by rw [mkScanner_close]; simp)
      (by omega)
    have hcur : s''.currentToken = Token.RndClose := by
      rcases hor with h | h
      · rw [h, mkScanner_close]
      · exact h
    refine ⟨s'', ?_, Or.inr hcur⟩
    rw [exprP_unfold f _ (by omega), addExprP_unfold (f - 1) _ (by omega)]
    have hprim : primaryExprP (f - 1 - 1 - 1) ⟨xs ++ ')' :: rest, [], Token.RndOpen⟩ =
        Except.ok (Expr.NumberLiteral v, s'') :=
      primaryExprP_paren (f - 1 - 1 - 1) _ s'' _ (by omega) rfl hs'' hcur
    have hmul : mulExprP (f - 1 - 1) ⟨xs ++ ')' :: rest, [], Token.RndOpen⟩ =
        Except.ok (Expr.NumberLiteral v, s'') := by
      rw [mulExprP_unfold (f - 1 - 1) _ (by omega), hprim, except_bind_ok]
      exact mulLoopP_exit (f - 1 - 1 - 1) _ _ (by omega)
        (by rw [hcur]; simp) (by rw [hcur]; simp)
    rw [hmul, except_bind_ok]
    exact addLoopP_exit (f - 1 - 1) _ _ (by omega)
      (by rw [hcur]; simp) (by rw [hcur]; simp)

/-- C3 (amended).  For every input that is one decimal integer literal
whose value is representable in `int` (at most `2147483647`), optionally
surrounded by matched parentheses and whitespace, parsing succeeds and
evaluation yields the literal's value.  (An out-of-range literal instead
aborts with the explicit decoding error — see the counterexample.) -/
theorem literal_wrapped_evaluates (ds xs : List Char) (v : Int)
    (hdig : isDigits ds = true) (hne : ds ≠ []) (hv : decodeLit ds = some v)
    (hw : Wraps ds xs) : run xs = Except.ok v := by
  obtain ⟨s', hs', _⟩ := wraps_parse ds v hdig hne hv xs hw [] (4 * (xs.length + 1)) rfl
    (by simp [mkScanner_nil]) (by simp [mkScanner_nil])
    (by simp [mkScanner_nil]) (by simp [mkScanner_nil]) (by omega)
  rw [List.append_nil] at hs'
  have hparse : ExprParser.parse xs = Except.ok (Expr.NumberLiteral v, s') := hs'
  simp only [run, hparse]
  simp [Calculator.evaluate]

theorem literal_wrapped_evaluates_witness :
    Wraps [ '4', '2' ] [ '(', ' ', '4', '2', ' ', ')' ] ∧
    run [ '(', ' ', '4', '2', ' ', ')' ] = Except.ok 42 :=
  ⟨Wraps.paren (Wraps.space_left (Wraps.space_right Wraps.base)),
    literal_wrapped_evaluates [ '4', '2' ] [ '(', ' ', '4', '2', ' ', ')' ] 42
      (by decide) (by decide) (by decide)
      (Wraps.paren (Wraps.space_left (Wraps.space_right Wraps.base)))⟩

theorem subtraction_folds_left_witness :
    decodeLit [ '8' ] = some 8 ∧
    run ([ '8' ] ++ ' ' :: '-' :: ' ' :: ([ '3' ] ++ ' ' :: '-' :: ' ' :: [ '2' ])) =
      Except.ok (8 - 3 - 2) :=
  ⟨by decide,
    (subtraction_folds_left [ '8' ] [ '3' ] [ '2' ] 8 3 2 (by decide) (by decide) (by decide)
      (by decide) (by decide) (by decide) (by decide) (by decide) (by decide)).2.1⟩

theorem lastIsDigit_cons (c : Char) (xs : List Char) (h : xs ≠ []) :
    lastIsDigit (c :: xs) = lastIsDigit xs := by
  cases xs with
  | nil => exact absurd rfl h
  | cons b l => simp [lastIsDigit, List.getLast?_cons_cons]

theorem headIsDigit_append (r z : List Char) (h : r ≠ []) :
    headIsDigit (r ++ z) = headIsDigit r := by
  cases r with
  | nil => exact absurd rfl h
  | cons b l => rfl

theorem headIsDigit_dropWhile (l : List Char) :
    headIsDigit (l.dropWhile Char.isDigit) = false := by
  induction l with
  | nil => rfl
  | cons c cs ih =>
    rw [List.dropWhile_cons]
    by_cases h : c.isDigit
    · simp only [h, if_true]
      exact ih
    · simp only [h]
      simpa [headIsDigit] using Bool.of_not_eq_true h

theorem isDigits_takeWhile (l : List Char) : isDigits (l.takeWhile Char.isDigit) = true := by
  induction l with
  | nil => rfl
  | cons c cs ih =>
    rw [List.takeWhile_cons]
    by_cases h : c.isDigit
    · simp only [h, if_true]
      simp [isDigits, List.all_cons, h]
    · simp [h, isDigits]

theorem lastIsDigit_of_isDigits (l : List Char) (h : isDigits l = true) (hne : l ≠ []) :
    lastIsDigit l = true := by
  induction l with
  | nil => exact absurd rfl hne
  | cons c cs ih =>
    simp only [isDigits, List.all_cons, Bool.and_eq_true] at h
    cases hcs : cs with
    | nil =>
      subst hcs
      simpa [lastIsDigit, List.getLast?] using h.1
    | cons b l' =>
      rw [← hcs, lastIsDigit_cons c cs (by rw [hcs]; simp)]
      exact ih (by simpa [isDigits] using h.2) (by rw [hcs]; simp)

theorem lastIsDigit_append (l r : List Char) (h : r ≠ []) :
    lastIsDigit (l ++ r) = lastIsDigit r := by
  cases hr : r.getLast? with
  | none => exact absurd (List.getLast?_eq_none_iff.mp hr) h
  | some x => simp [lastIsDigit, List.getLast?_append, hr, Option.or]

/-- Dropping the restriction from a space-split hypothesis to the tail:
if inserting a space after `c :: xs'` does not split a digit run,
neither does inserting it after `xs'`. -/
theorem not_split_tail (c : Char) (xs' ys : List Char)
    (h : ¬(lastIsDigit (c :: xs') = true ∧ headIsDigit ys = true)) :
    ¬(lastIsDigit xs' = true ∧ headIsDigit ys = true) := by
  cases hxs : xs' with
  | nil => simp [lastIsDigit, List.getLast?]
  | cons b l =>
    rw [← hxs]
    rintro ⟨ha, hb⟩
    exact h ⟨by rw [lastIsDigit_cons c xs' (by rw [hxs]; simp)]; exact ha, hb⟩

theorem tokenizeLoop_ne_whitespace (l : List Char) :
    (tokenizeLoop l).1 ≠ Token.Whitespace := by
  induction l with
  | nil => simp [tokenizeLoop]
  | cons c cs ih =>
    simp only [tokenizeLoop]
    split_ifs <;> first | exact ih | simp

/-- Inserting one space at a position that does not split a digit run
leaves the parser-visible token stream unchanged. -/
theorem toks_insert_space_aux (n : Nat) :
    ∀ xs ys : List Char, xs.length ≤ n →
      ¬(lastIsDigit xs = true ∧ headIsDigit ys = true) →
      toks (xs ++ ' ' :: ys) = toks (xs ++ ys) := by
  induction n with
  | zero =>
    intro xs ys hlen hnd
    cases xs with
    | nil => simpa using toks_space ys
    | cons c cs => simp at hlen
  | succ n ih =>
    intro xs ys hlen hnd
    cases xs with
    | nil => simpa using toks_space ys
    | cons c xs' =>
      simp only [List.length_cons] at hlen
      by_cases hc : c = ' '
      · subst hc
        rw [List.cons_append, List.cons_append, toks_space, toks_space]
        exact ih xs' ys (by omega) (not_split_tail ' ' xs' ys hnd)
      · by_cases hd : c.isDigit
        · by_cases hr : xs'.dropWhile Char.isDigit = []
          · have hxst : xs' = xs'.takeWhile Char.isDigit := by
              conv_lhs => rw [← List.takeWhile_append_dropWhile Char.isDigit xs']
              rw [hr, List.append_nil]
            have hdigits : isDigits (c :: xs') = true := by
              simp only [isDigits, List.all_cons, Bool.and_eq_true]
              refine ⟨hd, ?_⟩
              conv_lhs => rw [hxst]
              simpa [isDigits] using isDigits_takeWhile xs'
            have hcne : (c :: xs') ≠ [] := by simp
            have hyd : headIsDigit ys = false := by
              cases hy : headIsDigit ys with
              | false => rfl
              | true =>
                exact absurd ⟨lastIsDigit_of_isDigits (c :: xs') hdigits hcne, hy⟩ hnd
            have hL : tokenizeLoop ((c :: xs') ++ ' ' :: ys) =
                (Token.NumberLiteral, c :: xs', ' ' :: ys) :=
              tokenizeLoop_digits _ _ hcne hdigits rfl
            have hR : tokenizeLoop ((c :: xs') ++ ys) = (Token.NumberLiteral, c :: xs', ys) :=
              tokenizeLoop_digits _ _ hcne hdigits hyd
            rw [toks_step _ _ _ _ hL (by simp), toks_step _ _ _ _ hR (by simp), toks_space]
          · have hxs' : xs' = xs'.takeWhile Char.isDigit ++ xs'.dropWhile Char.isDigit :=
              (List.takeWhile_append_dropWhile _ _).symm
            have hxsne : xs' ≠ [] := by
              intro h0
              exact hr (by rw [h0]; rfl)
            have hdigct : isDigits (c :: xs'.takeWhile Char.isDigit) = true := by
              simp only [isDigits, List.all_cons, Bool.and_eq_true]
              exact ⟨hd, by simpa [isDigits] using isDigits_takeWhile xs'⟩
            have hrd : headIsDigit (xs'.dropWhile Char.isDigit) = false :=
              headIsDigit_dropWhile xs'
            have hsplit : ∀ z : List Char, (c :: xs') ++ z =
                (c :: xs'.takeWhile Char.isDigit) ++ (xs'.dropWhile Char.isDigit ++ z) := by
              intro z
              rw [List.cons_append, List.cons_append, ← List.append_assoc, ← hxs']
            rw [hsplit ( ' ' :: ys), hsplit ys]
            have hrdL : headIsDigit (xs'.dropWhile Char.isDigit ++ ' ' :: ys) = false := by
              rw [headIsDigit_append _ _ hr]
              exact hrd
            have hrdR : headIsDigit (xs'.dropWhile Char.isDigit ++ ys) = false := by
              rw [headIsDigit_append _ _ hr]
              exact hrd
            rw [toks_step _ _ _ _ (tokenizeLoop_digits _ _ (by simp) hdigct hrdL) (by simp),
              toks_step _ _ _ _ (tokenizeLoop_digits _ _ (by simp) hdigct hrdR) (by simp)]
            congr 1
            apply ih (xs'.dropWhile Char.isDigit) ys
              (by have := length_dropWhile_digits_le xs'; omega)
            rintro ⟨ha, hb⟩
            apply hnd
            refine ⟨?_, hb⟩
            rw [lastIsDigit_cons c xs' hxsne]
            conv_lhs => rw [hxs']
            rw [lastIsDigit_append _ _ hr]
            exact ha
        · have hd' : c.isDigit = false := by simpa using hd
          obtain ⟨tok, htne, htnl, htnw, hall⟩ := tokenizeLoop_single c hc hd'
          rw [List.cons_append, List.cons_append,
            toks_step _ _ _ _ (hall (xs' ++ ' ' :: ys)) htne,
            toks_step _ _ _ _ (hall (xs' ++ ys)) htne]
          congr 1
          exact ih xs' ys (by omega) (not_split_tail c xs' ys hnd)

/-- C7 (amended).  `tokenize` never exposes a `Whitespace` token: it
loops over `tokenizeOnce` while the result is whitespace and stores the
first other token.  Hence the parser-visible token stream is invariant
under inserting a space anywhere that does not split a number literal,
and `"2+3"`, `"2 + 3"` and `"  2  +  3  "` parse to the same tree and
evaluate to the same result.  (A space inserted inside a literal does
split it — see the counterexample.) -/
theorem whitespace_transparent :
    (∀ s : Scanner, (Scanner.tokenize s).currentToken ≠ Token.Whitespace) ∧
    (∀ s s' : Scanner, s.tokenizeOnce = (Token.Whitespace, s') → s.tokenize = s'.tokenize) ∧
    (∀ s s' : Scanner, ∀ t : Token, s.tokenizeOnce = (t, s') → t ≠ Token.Whitespace →
        s.tokenize = { s' with currentToken := t }) ∧
    (∀ xs ys : List Char, ¬(lastIsDigit xs = true ∧ headIsDigit ys = true) →
        toks (xs ++ ' ' :: ys) = toks (xs ++ ys)) ∧
    ExprParser.parse ("2+3".data) = ExprParser.parse ("2 + 3".data) ∧
    ExprParser.parse ("2 + 3".data) = ExprParser.parse ("  2  +  3  ".data) ∧
    runString "2+3" = Except.ok 5 ∧ runString "2 + 3" = Except.ok 5 ∧
    runString "  2  +  3  " = Except.ok 5 := by
  refine ⟨?_, tokenize_skips_whitespace, tokenize_stores_step,
    fun xs ys h => toks_insert_space_aux xs.length xs ys le_rfl h,
    by decide, by decide, by decide, by decide, by decide⟩
  intro s
  have h := tokenizeLoop_ne_whitespace s.remaining
  rcases hl : tokenizeLoop s.remaining with ⟨t, lit, rest⟩
  rw [hl] at h
  simp [Scanner.tokenize, hl]
  exact fun hw => h (by rw [hw])

theorem whitespace_transparent_witness :
    ¬(lastIsDigit [ '2' ] = true ∧ headIsDigit [ '+', '3' ] = true) ∧
    toks ([ '2' ] ++ ' ' :: [ '+', '3' ]) = toks ([ '2' ] ++ [ '+', '3' ]) :=
  ⟨by decide, whitespace_transparent.2.2.2.1 [ '2' ] [ '+', '3' ] (by decide)⟩
